import Mathlib

/-!
# Verification of the youtube_prezo_transcript core algorithms

This file gives a shallow embedding, in Lean 4, of the algorithmic core of the
youtube_prezo_transcript repository and proves (or refutes) the specified
properties about it.  Embedded components:

* `src/scene_detector.py` — `SceneDetector.detect_scenes` (the pooled
  sort + minimum-time gate) and `SceneDetector.merge_nearby_changes`;
* `src/document_generator.py` — the candidate window construction of
  `DocumentGenerator._create_slides` (time partitioning before the
  transcript-overlap materialization filter);
* `src/transcript_enhancer.py` — `TranscriptEnhancer._estimate_tokens`,
  `TranscriptEnhancer._create_batches` and
  `TranscriptEnhancer._distribute_enhanced_text`.

Python floats are modelled as exact rationals (`ℚ`); Python ints as `ℕ`.
Python's `int(x)` on a nonnegative float is modelled as the rational floor.
-/

namespace YPT

/-- `SceneChange` dataclass of `src/scene_detector.py` (lines 16-21):
timestamp, confidence, and the detection method tag. -/
structure SceneChange where
  timestamp : ℚ
  confidence : ℚ
  change_type : String
deriving DecidableEq, Repr

/-- The minimum-time gate loop of `SceneDetector.detect_scenes`
(`src/scene_detector.py` lines 55-61): walk the pooled, sorted candidate list;
keep a candidate iff its timestamp is at least `min_time_between_captures`
after the current `last_capture_time` watermark, advancing the watermark on
each acceptance.  Returns the kept list together with the final watermark
(the mutated `self.last_capture_time`). -/
def applyMinTimeGate (min_time_between_captures : ℚ) :
    List SceneChange → ℚ → List SceneChange × ℚ
  | [], last_capture_time => ([], last_capture_time)
  | change :: rest, last_capture_time =>
    if min_time_between_captures ≤ change.timestamp - last_capture_time then
      let (kept, final) := applyMinTimeGate min_time_between_captures rest change.timestamp
      (change :: kept, final)
    else
      applyMinTimeGate min_time_between_captures rest last_capture_time

/-- `SceneDetector.detect_scenes` (`src/scene_detector.py` lines 31-63).
The two frame-similarity sub-detectors (`_detect_ssim_changes`,
`_detect_histogram_changes`) perform image processing (SSIM, colour
histograms) and are abstracted as parameters `detectSSIM`/`detectHist`
producing candidate lists from the frame sequence; frames are
(timestamp, image) pairs with the image type `F` abstract.  The body:
return `[]` for fewer than two frames, otherwise pool the two candidate
lists, sort by timestamp (Python's `list.sort` is stable; `insertionSort`
with `≤` on timestamps computes the same stable result), and apply the
minimum-time gate.  The returned pair carries the detector's
`last_capture_time` watermark (unchanged on the short-circuit return). -/
def detect_scenes {F : Type} (min_time_between_captures : ℚ)
    (detectSSIM detectHist : List (ℚ × F) → List SceneChange)
    (frames : List (ℚ × F)) (last_capture_time : ℚ) :
    List SceneChange × ℚ :=
  if frames.length < 2 then ([], last_capture_time)
  else
    let all_changes := List.insertionSort (fun a b => a.timestamp ≤ b.timestamp)
      (detectSSIM frames ++ detectHist frames)
    applyMinTimeGate min_time_between_captures all_changes last_capture_time

/-- One iteration of the loop of `SceneDetector.merge_nearby_changes`
(`src/scene_detector.py` lines 164-172): `merged` is the running kept list
(always nonempty in the source, where it starts as `[changes[0]]`); if the
new change is within `time_threshold` of the last kept change, replace the
last kept change iff the new confidence is strictly higher, else append. -/
def mergeStep (time_threshold : ℚ) (merged : List SceneChange)
    (change : SceneChange) : List SceneChange :=
  match merged.getLast? with
  | none => merged
  | some last_change =>
    if change.timestamp - last_change.timestamp ≤ time_threshold then
      if last_change.confidence < change.confidence then
        merged.dropLast ++ [change]
      else
        merged
    else
      merged ++ [change]

/-- `SceneDetector.merge_nearby_changes` (`src/scene_detector.py`
lines 157-174): empty input yields `[]`; otherwise seed the kept list with
the first change and fold the loop body over the remaining changes. -/
def merge_nearby_changes (changes : List SceneChange) (time_threshold : ℚ) :
    List SceneChange :=
  match changes with
  | [] => []
  | c0 :: rest => rest.foldl (mergeStep time_threshold) [c0]

/-- Gate invariant: the kept list satisfies the minimum-spacing chain, and its
head (if any) is at least `min_gap` past the starting watermark. -/
theorem applyMinTimeGate_chain (min_gap : ℚ) :
    ∀ (l : List SceneChange) (last : ℚ),
      List.Chain' (fun a b => min_gap ≤ b.timestamp - a.timestamp)
        (applyMinTimeGate min_gap l last).1 ∧
      (∀ h ∈ (applyMinTimeGate min_gap l last).1.head?,
        min_gap ≤ h.timestamp - last) := by
  intro l
  induction l with
  | nil => intro last; simp [applyMinTimeGate]
  | cons c rest ih =>
    intro last
    by_cases hc : min_gap ≤ c.timestamp - last
    · have hrec := ih c.timestamp
      constructor
      · simp only [applyMinTimeGate, if_pos hc]
        rcases hhead : (applyMinTimeGate min_gap rest c.timestamp).1 with _ | ⟨h, t⟩
        · simp
        · refine List.Chain'.cons ?_ ?_
          · have := hrec.2 h
            rw [hhead] at this
            exact this (by simp)
          · have := hrec.1
            rw [hhead] at this
            exact this
      · intro h hh
        simp only [applyMinTimeGate, if_pos hc] at hh
        simp at hh
        exact hh ▸ hc
    · have hrec := ih last
      constructor
      · simpa only [applyMinTimeGate, if_neg hc] using hrec.1
      · intro h hh
        simp only [applyMinTimeGate, if_neg hc] at hh
        exact hrec.2 h hh

/-- Claim C2 (Monotonic gate): for every frame sequence, every pair of
candidate sub-detectors, and every detector state (watermark), the list
returned by `detect_scenes` has consecutive timestamp differences at least
`min_time_between_captures`, and when `min_time_between_captures > 0` the
timestamps are strictly increasing. -/
theorem detect_scenes_monotonic_gate {F : Type}
    (detectSSIM detectHist : List (ℚ × F) → List SceneChange)
    (min_gap last : ℚ) (frames : List (ℚ × F)) :
    List.Chain' (fun a b => min_gap ≤ b.timestamp - a.timestamp)
      (detect_scenes min_gap detectSSIM detectHist frames last).1 ∧
    (0 < min_gap →
      List.Pairwise (fun a b => a.timestamp < b.timestamp)
        (detect_scenes min_gap detectSSIM detectHist frames last).1) := by
  have hchain :
      List.Chain' (fun a b => min_gap ≤ b.timestamp - a.timestamp)
        (detect_scenes min_gap detectSSIM detectHist frames last).1 := by
    unfold detect_scenes
    by_cases hlen : frames.length < 2
    · simp [hlen]
    · simp only [if_neg hlen]
      exact (applyMinTimeGate_chain min_gap _ last).1
  refine ⟨hchain, fun hpos => ?_⟩
  haveI : IsTrans SceneChange (fun a b => a.timestamp < b.timestamp) :=
    ⟨fun _ _ _ h1 h2 => lt_trans h1 h2⟩
  rw [← List.chain'_iff_pairwise]
  exact List.Chain'.imp (fun a b h => by linarith) hchain

/-- Witness for C2 at a concrete input: two frames, one candidate per
sub-detector, `min_gap = 1`. -/
theorem detect_scenes_monotonic_gate_witness :
    List.Pairwise (fun a b => a.timestamp < b.timestamp)
      (detect_scenes 1 (fun _ => [⟨2, 1/2, "ssim"⟩])
        (fun _ => [⟨4, 1/2, "histogram"⟩]) [((0:ℚ), ()), (1, ())] 0).1 :=
  (detect_scenes_monotonic_gate (fun _ => [⟨2, 1/2, "ssim"⟩])
    (fun _ => [⟨4, 1/2, "histogram"⟩]) 1 0 [((0:ℚ), ()), (1, ())]).2 (by norm_num)

/-- Claim C6 (Minimum-time gate is first-seen-wins): fresh detector
(watermark 0), `min_time_between_captures = 1`; the pooled sorted candidate
list is exactly a change at t=10 (confidence 0.9) followed by one at t=10.3
(confidence 0.95); the gate keeps only the earlier, lower-confidence change. -/
theorem detect_scenes_gate_first_seen_wins :
    (detect_scenes 1 (fun _ => [⟨10, 0.9, "ssim"⟩])
      (fun _ => [⟨10.3, 0.95, "histogram"⟩]) [((0:ℚ), ()), (1, ())] 0).1 =
      [⟨10, 0.9, "ssim"⟩] := by
  norm_num [detect_scenes, List.insertionSort, List.orderedInsert,
    applyMinTimeGate]

/-- Claim C8 (Insufficient input): for fewer than 2 frames, `detect_scenes`
returns the empty list and leaves the `last_capture_time` watermark
unchanged. -/
theorem detect_scenes_insufficient_frames {F : Type}
    (detectSSIM detectHist : List (ℚ × F) → List SceneChange)
    (min_gap last : ℚ) (frames : List (ℚ × F))
    (hlen : frames.length < 2) :
    detect_scenes min_gap detectSSIM detectHist frames last = ([], last) := by
  simp [detect_scenes, hlen]

/-- Witness for C8 at a concrete input: a single frame. -/
theorem detect_scenes_insufficient_frames_witness :
    detect_scenes 1 (fun _ => [⟨2, 1/2, "ssim"⟩]) (fun _ => [])
      [((5:ℚ), ())] 3 = ([], 3) :=
  detect_scenes_insufficient_frames _ _ 1 3 [((5:ℚ), ())] (by simp)

/-- One `merge_nearby_changes` loop iteration preserves the merge invariants:
the kept list keeps a last element (no later in time than before), keeps the
`time_threshold`-separation chain, and only contains old elements or the new
change.  Requires the new change to be no earlier than the current last kept
change (guaranteed by sorted input). -/
theorem mergeStep_inv (tt : ℚ) (m : List SceneChange) (l c : SceneChange)
    (hl : m.getLast? = some l)
    (hchain : List.Chain' (fun a b => tt < b.timestamp - a.timestamp) m)
    (hlc : l.timestamp ≤ c.timestamp) :
    ∃ l', (mergeStep tt m c).getLast? = some l' ∧ (l' = l ∨ l' = c) ∧
      List.Chain' (fun a b => tt < b.timestamp - a.timestamp) (mergeStep tt m c) ∧
      ∀ a ∈ mergeStep tt m c, a ∈ m ∨ a = c := by
  have hsplit : m.dropLast ++ [l] = m := List.dropLast_append_getLast? l hl
  simp only [mergeStep, hl]
  by_cases hwithin : c.timestamp - l.timestamp ≤ tt
  · rw [if_pos hwithin]
    by_cases hconf : l.confidence < c.confidence
    · rw [if_pos hconf]
      refine ⟨c, by simp, Or.inr rfl, ?_, ?_⟩
      · rw [← hsplit] at hchain
        rw [List.chain'_append] at hchain ⊢
        refine ⟨hchain.1, List.chain'_singleton c, ?_⟩
        intro x hx y hy
        simp only [List.head?_cons, Option.mem_def, Option.some.injEq] at hy
        subst hy
        have := hchain.2.2 x hx l (by simp)
        linarith
      · intro a ha
        rcases List.mem_append.mp ha with h | h
        · exact Or.inl (List.mem_of_mem_dropLast h)
        · simp at h
          exact Or.inr h
    · rw [if_neg hconf]
      exact ⟨l, hl, Or.inl rfl, hchain, fun a ha => Or.inl ha⟩
  · rw [if_neg hwithin]
    refine ⟨c, by simp, Or.inr rfl, ?_, ?_⟩
    · rw [List.chain'_append]
      refine ⟨hchain, List.chain'_singleton c, ?_⟩
      intro x hx y hy
      simp only [List.head?_cons, Option.mem_def, Option.some.injEq] at hy
      subst hy
      rw [Option.mem_def, hl, Option.some.injEq] at hx
      subst hx
      linarith
    · intro a ha
      rcases List.mem_append.mp ha with h | h
      · exact Or.inl h
      · simp at h
        exact Or.inr h

/-- Folding the merge loop over a sorted remainder preserves the merge
invariants established by `mergeStep_inv`. -/
theorem foldl_mergeStep_inv (tt : ℚ) (P : SceneChange → Prop) :
    ∀ (rest m : List SceneChange) (l : SceneChange),
      m.getLast? = some l →
      List.Chain' (fun a b => tt < b.timestamp - a.timestamp) m →
      (∀ a ∈ m, P a) → (∀ a ∈ rest, P a) →
      List.Sorted (fun a b : SceneChange => a.timestamp ≤ b.timestamp) rest →
      (∀ t ∈ rest, l.timestamp ≤ t.timestamp) →
      List.Chain' (fun a b => tt < b.timestamp - a.timestamp)
        (rest.foldl (mergeStep tt) m) ∧
      (∀ a ∈ rest.foldl (mergeStep tt) m, P a) := by
  intro rest
  induction rest with
  | nil =>
    intro m l hl hchain hm _ _ _
    exact ⟨hchain, hm⟩
  | cons c rest' ih =>
    intro m l hl hchain hm hr hsorted hlast
    obtain ⟨l', hl', hll', hchain', hmem'⟩ :=
      mergeStep_inv tt m l c hl hchain (hlast c (by simp))
    rw [List.foldl_cons]
    refine ih (mergeStep tt m c) l' hl' hchain' ?_ ?_ hsorted.of_cons ?_
    · intro a ha
      rcases hmem' a ha with h | h
      · exact hm a h
      · exact h ▸ hr c (by simp)
    · intro a ha
      exact hr a (by simp [ha])
    · intro t ht
      have hct : c.timestamp ≤ t.timestamp :=
        (List.pairwise_cons.mp hsorted).1 t ht
      rcases hll' with h | h
      · exact le_trans (h ▸ hlast c (by simp)) hct
      · exact h ▸ hct

/-- If the accumulated kept list already ends more than `time_threshold`
before every remaining change (expressed as a separation chain over the
concatenation), the merge loop appends everything unchanged. -/
theorem foldl_mergeStep_of_chain (tt : ℚ) :
    ∀ (rest m : List SceneChange) (l : SceneChange),
      m.getLast? = some l →
      List.Chain' (fun a b => tt < b.timestamp - a.timestamp) (m ++ rest) →
      rest.foldl (mergeStep tt) m = m ++ rest := by
  intro rest
  induction rest with
  | nil => intro m l _ _; simp
  | cons c rest' ih =>
    intro m l hl hchain
    have hgap : tt < c.timestamp - l.timestamp := by
      have := (List.chain'_append.mp hchain).2.2 l hl c (by simp)
      exact this
    have hstep : mergeStep tt m c = m ++ [c] := by
      simp only [mergeStep, hl]
      rw [if_neg (by linarith)]
    rw [List.foldl_cons, hstep, ih (m ++ [c]) c (by simp) (by simpa using hchain)]
    simp

/-- Claim C9 (Implicit merge output invariant): for every
`time_threshold ≥ 0` and every input sorted ascending by timestamp, every
element returned by `merge_nearby_changes` is an element of the input,
consecutive output timestamps differ by strictly more than
`time_threshold`, and re-applying `merge_nearby_changes` with the same
threshold leaves the output unchanged. -/
theorem merge_nearby_changes_invariant (tt : ℚ) (xs : List SceneChange)
    (htt : 0 ≤ tt)
    (hsort : List.Sorted (fun a b : SceneChange => a.timestamp ≤ b.timestamp) xs) :
    (∀ c ∈ merge_nearby_changes xs tt, c ∈ xs) ∧
    List.Chain' (fun a b => tt < b.timestamp - a.timestamp)
      (merge_nearby_changes xs tt) ∧
    merge_nearby_changes (merge_nearby_changes xs tt) tt =
      merge_nearby_changes xs tt := by
  match xs with
  | [] => simp [merge_nearby_changes]
  | c0 :: rest =>
    have hpair := List.pairwise_cons.mp hsort
    have hmain := foldl_mergeStep_inv tt (· ∈ c0 :: rest) rest [c0] c0 rfl
      (List.chain'_singleton c0) (by simp) (fun a ha => by simp [ha])
      hsort.of_cons hpair.1
    have hout : merge_nearby_changes (c0 :: rest) tt =
        rest.foldl (mergeStep tt) [c0] := rfl
    refine ⟨by rw [hout]; exact hmain.2, by rw [hout]; exact hmain.1, ?_⟩
    rw [hout]
    rcases hres : rest.foldl (mergeStep tt) [c0] with _ | ⟨y, ys⟩
    · simp [merge_nearby_changes]
    · show List.foldl (mergeStep tt) [y] ys = y :: ys
      have hchain : List.Chain' (fun a b => tt < b.timestamp - a.timestamp)
          ([y] ++ ys) := by
        have h := hmain.1
        rw [hres] at h
        simpa using h
      exact foldl_mergeStep_of_chain tt ys [y] y rfl hchain

/-- Witness for C9 at a concrete input: two changes 0.5s apart,
`time_threshold = 1`; idempotence of the merge. -/
theorem merge_nearby_changes_invariant_witness :
    merge_nearby_changes
        (merge_nearby_changes [⟨10, 1/2, "ssim"⟩, ⟨21/2, 4/5, "ssim"⟩] 1) 1 =
      merge_nearby_changes [⟨10, 1/2, "ssim"⟩, ⟨21/2, 4/5, "ssim"⟩] 1 :=
  (merge_nearby_changes_invariant 1 [⟨10, 1/2, "ssim"⟩, ⟨21/2, 4/5, "ssim"⟩]
    (by norm_num) (by norm_num [List.sorted_cons])).2.2

/-- Claim C7 (Merge replacement rule): processing is in order — extending the
input by one further change `c` applies exactly the documented rule to the
last kept change `l`: within `time_threshold`, `c` replaces `l` iff its
confidence is strictly higher (first-seen wins ties), otherwise it is
appended as new.  Conjoined with the concrete instance: t=10 (conf 0.5) and
t=10.5 (conf 0.8) under threshold 1 merge to the single t=10.5 change. -/
theorem merge_nearby_changes_replacement_rule :
    (∀ (xs : List SceneChange) (c l : SceneChange) (tt : ℚ),
      (merge_nearby_changes xs tt).getLast? = some l →
      merge_nearby_changes (xs ++ [c]) tt =
        if c.timestamp - l.timestamp ≤ tt then
          (if l.confidence < c.confidence then
            (merge_nearby_changes xs tt).dropLast ++ [c]
          else merge_nearby_changes xs tt)
        else merge_nearby_changes xs tt ++ [c]) ∧
    merge_nearby_changes [⟨10, 0.5, "ssim"⟩, ⟨10.5, 0.8, "histogram"⟩] 1 =
      [⟨10.5, 0.8, "histogram"⟩] := by
  constructor
  · intro xs c l tt hl
    match xs with
    | [] => simp [merge_nearby_changes] at hl
    | c0 :: rest =>
      have h1 : merge_nearby_changes ((c0 :: rest) ++ [c]) tt =
          mergeStep tt (merge_nearby_changes (c0 :: rest) tt) c := by
        show (rest ++ [c]).foldl (mergeStep tt) [c0] = _
        rw [List.foldl_append]
        rfl
      rw [h1]
      simp only [mergeStep, hl]
  · norm_num [merge_nearby_changes, mergeStep, List.getLast?]

/-- Witness for C7 at a concrete input: appending a change 2s after the last
kept change appends it as new. -/
theorem merge_nearby_changes_replacement_rule_witness :
    merge_nearby_changes ([⟨10, 1/2, "ssim"⟩] ++ [⟨12, 1/2, "ssim"⟩]) 1 =
      [⟨10, 1/2, "ssim"⟩, ⟨(12:ℚ), 1/2, "ssim"⟩] := by
  have h := merge_nearby_changes_replacement_rule.1 [⟨10, 1/2, "ssim"⟩]
    ⟨12, 1/2, "ssim"⟩ ⟨10, 1/2, "ssim"⟩ 1 rfl
  rw [h]
  norm_num [merge_nearby_changes]

/-- `TranscriptSegment` dataclass of `src/transcript_parser.py` (lines 15-31). -/
structure TranscriptSegment where
  start_time : ℚ
  end_time : ℚ
  text : String
  confidence : ℚ
  enhanced_text : String
  key_points : List String
  summary : String
deriving DecidableEq, Repr

/-- Helper to build a segment carrying only text, with the dataclass
defaults for the remaining fields. -/
def mkSegment (text : String) : TranscriptSegment :=
  ⟨0, 0, text, 1, "", [], ""⟩

/-- `TranscriptEnhancer._estimate_tokens` (`src/transcript_enhancer.py`
lines 80-87): Python computes `max(1, len(text) // 3.5)`; float floor
division by 3.5 is exactly `⌊len / 3.5⌋ = (2 * len) / 7` in natural-number
division (shown in `estimate_tokens_floor`). -/
def _estimate_tokens (text : String) : ℕ :=
  max 1 (2 * text.length / 7)

/-- One iteration of the greedy loop of `TranscriptEnhancer._create_batches`
(`src/transcript_enhancer.py` lines 116-126); the state is
`(batches, current_batch, current_tokens)`. -/
def batchStep (max_tokens min_tokens : ℕ)
    (st : List (List TranscriptSegment) × List TranscriptSegment × ℕ)
    (segment : TranscriptSegment) :
    List (List TranscriptSegment) × List TranscriptSegment × ℕ :=
  let segment_tokens := _estimate_tokens segment.text
  if max_tokens < st.2.2 + segment_tokens ∧ min_tokens ≤ st.2.2 then
    (st.1 ++ [st.2.1], [segment], segment_tokens)
  else
    (st.1, st.2.1 ++ [segment], st.2.2 + segment_tokens)

/-- `TranscriptEnhancer._create_batches` (`src/transcript_enhancer.py`
lines 89-132).  With batching disabled each segment is its own batch.
Otherwise `max_tokens = int(target_tokens * 1.5) = 3·t/2` and
`min_tokens = int(target_tokens * 0.7) = 7·t/10` (exact values of the
Python float expressions, as natural-number division), then the greedy
loop, then the final flush of a non-empty `current_batch`. -/
def _create_batches (enable_batching : Bool) (target_tokens : ℕ)
    (segments : List TranscriptSegment) : List (List TranscriptSegment) :=
  if enable_batching = false then
    segments.map (fun segment => [segment])
  else
    let max_tokens := 3 * target_tokens / 2
    let min_tokens := 7 * target_tokens / 10
    let final := segments.foldl (batchStep max_tokens min_tokens) ([], [], 0)
    if final.2.1 ≠ [] then final.1 ++ [final.2.1] else final.1

/-- Estimated token count of a batch: the sum of the per-segment estimates
(the quantity the loop accumulates in `current_tokens`). -/
def batchTokens (b : List TranscriptSegment) : ℕ :=
  (b.map (fun s => _estimate_tokens s.text)).sum

/-- Auxiliary cast fact: Python's `len(text) // 3.5` equals the rational
floor, which equals `(2 * len) / 7` in `ℕ`. -/
theorem two_mul_div_seven_eq_floor (n : ℕ) :
    2 * n / 7 = ⌊(n : ℚ) / 3.5⌋₊ := by
  have h : ((n : ℚ) / 3.5) = ((2 * n : ℕ) : ℚ) / ((7 : ℕ) : ℚ) := by
    push_cast
    rw [show (3.5 : ℚ) = 7 / 2 by norm_num]
    ring
  rw [h, Nat.floor_div_nat, Nat.floor_natCast]

/-- Claim C5 counterexample: on a 4-character text the code's estimate is 1
while the spec formula `max(1, ceil(len / 3.5))` gives 2. -/
theorem estimate_tokens_not_ceil :
    _estimate_tokens "abcd" ≠ max 1 ⌈(("abcd".length : ℕ) : ℚ) / 3.5⌉₊ := by
  have hlhs : _estimate_tokens "abcd" = 1 := by decide
  have hceil : ⌈(((4:ℕ) : ℚ)) / 3.5⌉₊ = 2 := by
    rw [Nat.ceil_eq_iff (by norm_num)]
    norm_num
  have hlen : "abcd".length = 4 := by decide
  rw [hlhs, hlen, hceil]
  norm_num

/-- Claim C5 (amended): for every text string, the token estimate computed by
`_estimate_tokens` equals `max(1, floor(length_in_characters / 3.5))` (the
Python `//` floor division, not the ceiling). -/
theorem estimate_tokens_floor (text : String) :
    _estimate_tokens text = max 1 ⌊((text.length : ℕ) : ℚ) / 3.5⌋₊ := by
  unfold _estimate_tokens
  rw [two_mul_div_seven_eq_floor]

/-- The greedy loop state satisfies: flattening `batches ++ [current_batch]`
yields the already-consumed input prefix. -/
theorem foldl_batchStep_flatten (maxT minT : ℕ) :
    ∀ (segs : List TranscriptSegment)
      (st : List (List TranscriptSegment) × List TranscriptSegment × ℕ),
      (segs.foldl (batchStep maxT minT) st).1.flatten ++
        (segs.foldl (batchStep maxT minT) st).2.1 =
      st.1.flatten ++ st.2.1 ++ segs := by
  intro segs
  induction segs with
  | nil => intro st; simp
  | cons c rest ih =>
    intro st
    rw [List.foldl_cons]
    rw [ih (batchStep maxT minT st c)]
    unfold batchStep
    by_cases hc : maxT < st.2.2 + _estimate_tokens c.text ∧ minT ≤ st.2.2
    · rw [if_pos hc]
      simp
    · rw [if_neg hc]
      simp

/-- Claim C4 (Batch partition law): for every segment sequence, whether
batching is enabled or disabled, and every target, concatenating the batches
returned by `_create_batches` in order yields exactly the input sequence. -/
theorem create_batches_flatten_eq (enable_batching : Bool) (target_tokens : ℕ)
    (segments : List TranscriptSegment) :
    (_create_batches enable_batching target_tokens segments).flatten =
      segments := by
  unfold _create_batches
  by_cases he : enable_batching = false
  · rw [if_pos he]
    induction segments with
    | nil => simp
    | cons c rest ih => simpa using ih
  · rw [if_neg he]
    have h := foldl_batchStep_flatten (3 * target_tokens / 2)
      (7 * target_tokens / 10) segments ([], [], 0)
    simp only [List.flatten_nil, List.nil_append] at h
    by_cases hcur : (segments.foldl
        (batchStep (3 * target_tokens / 2) (7 * target_tokens / 10))
        ([], [], 0)).2.1 ≠ []
    · rw [if_pos hcur]
      rw [List.flatten_append]
      simpa using h
    · rw [if_neg hcur]
      push_neg at hcur
      rw [hcur] at h
      simpa using h

/-- The greedy loop state satisfies: every already-closed batch has at least
`min_tokens` estimated tokens, and `current_tokens` tracks the current
batch's estimate. -/
theorem foldl_batchStep_min (maxT minT : ℕ) :
    ∀ (segs : List TranscriptSegment)
      (st : List (List TranscriptSegment) × List TranscriptSegment × ℕ),
      (∀ b ∈ st.1, minT ≤ batchTokens b) → st.2.2 = batchTokens st.2.1 →
      (∀ b ∈ (segs.foldl (batchStep maxT minT) st).1, minT ≤ batchTokens b) ∧
      (segs.foldl (batchStep maxT minT) st).2.2 =
        batchTokens (segs.foldl (batchStep maxT minT) st).2.1 := by
  intro segs
  induction segs with
  | nil => intro st h1 h2; exact ⟨h1, h2⟩
  | cons c rest ih =>
    intro st h1 h2
    rw [List.foldl_cons]
    refine ih (batchStep maxT minT st c) ?_ ?_
    · intro b hb
      unfold batchStep at hb
      by_cases hc : maxT < st.2.2 + _estimate_tokens c.text ∧ minT ≤ st.2.2
      · rw [if_pos hc] at hb
        simp only at hb
        rcases List.mem_append.mp hb with h | h
        · exact h1 b h
        · simp only [List.mem_singleton] at h
          subst h
          rw [← h2]
          exact hc.2
      · rw [if_neg hc] at hb
        exact h1 b hb
    · unfold batchStep
      by_cases hc : maxT < st.2.2 + _estimate_tokens c.text ∧ minT ≤ st.2.2
      · rw [if_pos hc]
        simp [batchTokens]
      · rw [if_neg hc]
        simp only
        rw [h2]
        simp [batchTokens]

/-- Segment with a 105-character text, estimated at `max(1, 2·105/7) = 30`
tokens, used in the C3 counterexample. -/
def segA : TranscriptSegment :=
  mkSegment "aaaaaaaaaaaaaaaaaaaaaaaaaaaaaaaaaaaaaaaaaaaaaaaaaaaaaaaaaaaaaaaaaaaaaaaaaaaaaaaaaaaaaaaaaaaaaaaaaaaaaaaaa"

/-- Segment with a 35-character text (10 estimated tokens), used in the C3
counterexample. -/
def segB : TranscriptSegment :=
  mkSegment "bbbbbbbbbbbbbbbbbbbbbbbbbbbbbbbbbbb"

/-- Claim C3 counterexample: with `target_tokens = 10` (so
`max_tokens = 15`, `min_tokens = 7`) the greedy rule closes the first batch
`[segA]` holding 30 estimated tokens — far above `1.5 × target = 15` — so a
closed batch need not lie in `[0.7×target, 1.5×target]`.  (`segA` was added
while the running batch was still below `min_tokens`, so the overflow check
could not fire.) -/
theorem create_batches_exceeds_max :
    _create_batches true 10 [segA, segB] = [[segA], [segB]] ∧
    batchTokens [segA] = 30 ∧ ¬ ((batchTokens [segA] : ℚ) ≤ 1.5 * 10) := by
  refine ⟨by decide, by decide, ?_⟩
  have h : batchTokens [segA] = 30 := by decide
  rw [h]
  norm_num

/-- Claim C3 (amended): with batching enabled and a positive target, every
batch except possibly the final one has an estimated token count of at least
`int(0.7 × target_tokens)` at the moment it is closed by the greedy rule;
the upper bound `1.5 × target_tokens` need not hold (see
`create_batches_exceeds_max`). -/
theorem create_batches_min_bound (target_tokens : ℕ)
    (segments : List TranscriptSegment) (hpos : 0 < target_tokens) :
    ∀ b ∈ (_create_batches true target_tokens segments).dropLast,
      ⌊(target_tokens : ℚ) * 0.7⌋₊ ≤ batchTokens b := by
  have hmin : ⌊(target_tokens : ℚ) * 0.7⌋₊ = 7 * target_tokens / 10 := by
    have h : ((target_tokens : ℚ) * 0.7) =
        ((7 * target_tokens : ℕ) : ℚ) / ((10 : ℕ) : ℚ) := by
      push_cast
      rw [show (0.7 : ℚ) = 7 / 10 by norm_num]
      ring
    rw [h, Nat.floor_div_nat, Nat.floor_natCast]
  rw [hmin]
  intro b hb
  have hinv := foldl_batchStep_min (3 * target_tokens / 2)
    (7 * target_tokens / 10) segments ([], [], 0) (by simp) (by simp [batchTokens])
  unfold _create_batches at hb
  simp only [Bool.true_eq_false, if_false] at hb
  by_cases hcur : (segments.foldl
      (batchStep (3 * target_tokens / 2) (7 * target_tokens / 10))
      ([], [], 0)).2.1 ≠ []
  · rw [if_pos hcur, List.dropLast_concat] at hb
    exact hinv.1 b hb
  · rw [if_neg hcur] at hb
    exact hinv.1 b (List.dropLast_subset _ hb)

set_option maxRecDepth 10000 in
/-- Witness for C3 (amended) at a concrete input: the closed batch `[segA]`
meets the minimum bound for `target_tokens = 10`. -/
theorem create_batches_min_bound_witness :
    ⌊((10:ℕ) : ℚ) * 0.7⌋₊ ≤ batchTokens [segA] :=
  create_batches_min_bound 10 [segA, segB] (by norm_num) [segA] (by decide)

/-- The sentence-boundary characters of the regex `[.!?]+` used by
`TranscriptEnhancer._distribute_enhanced_text`
(`src/transcript_enhancer.py` line 147). -/
def isSentenceDelim (c : Char) : Bool :=
  c == '.' || c == '!' || c == '?'

/-- Python's `str.strip()` on a character list: drop whitespace from both
ends. -/
def pyStrip (cs : List Char) : List Char :=
  ((cs.dropWhile Char.isWhitespace).reverse.dropWhile Char.isWhitespace).reverse

/-- Lines 147-148 of `src/transcript_enhancer.py`:
`re.split(r'[.!?]+', enhanced_text)` followed by stripping each piece and
keeping only the non-empty ones.  Splitting at every single delimiter
instead of at delimiter runs only adds empty pieces, which the non-empty
filter removes, so the composite is the same function. -/
def splitSentences (enhanced_text : String) : List (List Char) :=
  ((enhanced_text.data.splitOnP isSentenceDelim).map pyStrip).filter
    (fun s => s ≠ [])

/-- The distribution loop of `TranscriptEnhancer._distribute_enhanced_text`
(`src/transcript_enhancer.py` lines 155-167), recursing over the segments
with the loop counter `i` and the running `sentence_index`: each segment
receives `sentences_per_segment` sentences plus one more for the first
`remainder` segments, joined with `". "` and terminated with `"."`; once
the sentences run out the segment's own original text is emitted. -/
def distributeLoop (sentences : List (List Char))
    (sentences_per_segment remainder : ℕ) :
    ℕ → ℕ → List TranscriptSegment → List String
  | _, _, [] => []
  | i, sentence_index, segment :: rest =>
    let num_sentences := sentences_per_segment + (if i < remainder then 1 else 0)
    if sentence_index < sentences.length then
      String.mk (List.intercalate ('.' :: ' ' :: [])
          ((sentences.drop sentence_index).take num_sentences) ++ ['.']) ::
        distributeLoop sentences sentences_per_segment remainder (i + 1)
          (sentence_index + num_sentences) rest
    else
      segment.text ::
        distributeLoop sentences sentences_per_segment remainder (i + 1)
          sentence_index rest

/-- `TranscriptEnhancer._distribute_enhanced_text`
(`src/transcript_enhancer.py` lines 138-169). -/
def _distribute_enhanced_text (enhanced_text : String)
    (segments : List TranscriptSegment) : List String :=
  if segments = [] then []
  else
    let sentences := splitSentences enhanced_text
    distributeLoop sentences (sentences.length / segments.length)
      (sentences.length % segments.length) 0 0 segments

/-- The distribution loop emits exactly one string per segment. -/
theorem distributeLoop_length (sentences : List (List Char)) (per rem : ℕ) :
    ∀ (segs : List TranscriptSegment) (i idx : ℕ),
      (distributeLoop sentences per rem i idx segs).length = segs.length := by
  intro segs
  induction segs with
  | nil => intro i idx; rfl
  | cons s rest ih =>
    intro i idx
    unfold distributeLoop
    by_cases hc : idx < sentences.length
    · rw [if_pos hc]
      simp [ih]
    · rw [if_neg hc]
      simp [ih]

/-- Once the sentence index has reached the end of the sentence list, every
remaining segment receives its own original text. -/
theorem distributeLoop_out_of_sentences (sentences : List (List Char))
    (per rem : ℕ) :
    ∀ (segs : List TranscriptSegment) (i idx : ℕ),
      sentences.length ≤ idx →
      distributeLoop sentences per rem i idx segs =
        segs.map (fun s => s.text) := by
  intro segs
  induction segs with
  | nil => intro i idx _; rfl
  | cons s rest ih =>
    intro i idx hidx
    unfold distributeLoop
    rw [if_neg (by omega)]
    simp [ih (i + 1) idx hidx]

/-- With `sentences_per_segment = 0` and `remainder = |sentences|` (the
values computed when there are fewer sentences than segments), segment
positions at or beyond `|sentences|` receive their own original text. -/
theorem distributeLoop_fallback (sentences : List (List Char)) :
    ∀ (segs : List TranscriptSegment) (i : ℕ), i ≤ sentences.length →
      ∀ j, sentences.length ≤ i + j →
        (distributeLoop sentences 0 sentences.length i i segs)[j]? =
          segs[j]?.map (fun s => s.text) := by
  intro segs
  induction segs with
  | nil => intro i _ j _; simp [distributeLoop]
  | cons s rest ih =>
    intro i hi j hj
    by_cases hiS : i < sentences.length
    · unfold distributeLoop
      rw [if_pos hiS, if_pos hiS]
      match j with
      | 0 => omega
      | j' + 1 =>
        simp only [List.getElem?_cons_succ]
        exact ih (i + 1) (by omega) j' (by omega)
    · have hieq : ¬ (i < sentences.length) := hiS
      rw [distributeLoop_out_of_sentences sentences 0 sentences.length
        (s :: rest) i i (by omega)]
      rw [List.getElem?_map]

/-- Claim C10 (Implicit distribution shape): for every non-empty segment
list and every enhanced text string, `_distribute_enhanced_text` returns
exactly one string per input segment, and when the enhanced text splits
into fewer sentences than there are segments, each segment position at or
beyond the number of available sentences receives that segment's own
original text unchanged. -/
theorem distribute_enhanced_text_shape (enhanced_text : String)
    (segments : List TranscriptSegment) (hne : segments ≠ []) :
    (_distribute_enhanced_text enhanced_text segments).length =
      segments.length ∧
    ((splitSentences enhanced_text).length < segments.length →
      ∀ j, (splitSentences enhanced_text).length ≤ j →
        (_distribute_enhanced_text enhanced_text segments)[j]? =
          segments[j]?.map (fun s => s.text)) := by
  unfold _distribute_enhanced_text
  rw [if_neg hne]
  refine ⟨distributeLoop_length _ _ _ segments 0 0, ?_⟩
  intro hlt j hj
  show (distributeLoop (splitSentences enhanced_text)
      ((splitSentences enhanced_text).length / segments.length)
      ((splitSentences enhanced_text).length % segments.length)
      0 0 segments)[j]? = segments[j]?.map (fun s => s.text)
  rw [Nat.div_eq_of_lt hlt, Nat.mod_eq_of_lt hlt]
  exact distributeLoop_fallback (splitSentences enhanced_text) segments 0
    (by omega) j (by omega)

/-- Witness for C10 at a concrete input: an empty enhanced text (zero
sentences) over one segment returns that segment's original text. -/
theorem distribute_enhanced_text_shape_witness :
    (_distribute_enhanced_text "" [mkSegment "hello"]).length = 1 ∧
    (_distribute_enhanced_text "" [mkSegment "hello"])[0]? = some "hello" := by
  have h := distribute_enhanced_text_shape "" [mkSegment "hello"] (by simp)
  refine ⟨h.1, ?_⟩
  have h2 := h.2 (by decide) 0 (by decide)
  rw [h2]
  rfl

/-- Hard per-slide time cap `time_limit_per_slide` of
`DocumentGenerator._create_slides` (`src/document_generator.py` line 103). -/
def time_limit_per_slide : ℚ := 300

/-- The splitting while-loop of `DocumentGenerator._create_slides`
(`src/document_generator.py` lines 121-175, restricted to the time
arithmetic): emit windows `(current_time, min(current_time + L, end_time))`
while `current_time < end_time`, advancing `current_time` to the window
end.  The loop is embedded with an explicit iteration budget (`fuel`);
`chopWindows` below supplies `⌈(end_time - current_time) / L⌉` iterations,
which suffices whenever `L > 0` (the lemmas quantify over any sufficient
fuel). -/
def chopFuel (L : ℚ) : ℕ → ℚ → ℚ → List (ℚ × ℚ)
  | 0, _, _ => []
  | fuel + 1, current_time, end_time =>
    if current_time < end_time then
      (current_time, min (current_time + L) end_time) ::
        chopFuel L fuel (min (current_time + L) end_time) end_time
    else []

/-- The while-loop of `_create_slides` run on one `(current_time, end_time)`
range. -/
def chopWindows (L current_time end_time : ℚ) : List (ℚ × ℚ) :=
  chopFuel L (⌈(end_time - current_time) / L⌉.toNat) current_time end_time

/-- The `start_time` assigned by `_create_slides` to scene change `i`
(`src/document_generator.py` lines 107-108 and 114): change 0 starts at 0,
change `i > 0` starts at change `i-1`'s timestamp. -/
def rangeStart (ts : List ℚ) (i : ℕ) : ℚ :=
  if i = 0 then 0 else ts.getD (i - 1) 0

/-- The `end_time` assigned by `_create_slides` to scene change `i`
(`src/document_generator.py` lines 109-118): change `i+1`'s timestamp when
one exists (for `i = 0` the source tests `len(scene_changes) > 1` and for
`i > 0` it tests `i < len - 1`, both equivalent to `i + 1 < len`), else the
change's own timestamp plus the cap. -/
def rangeEnd (L : ℚ) (ts : List ℚ) (i : ℕ) : ℚ :=
  if i + 1 < ts.length then ts.getD (i + 1) 0 else ts.getD i 0 + L

/-- The per-scene-change `(start_time, end_time)` ranges of `_create_slides`
(`src/document_generator.py` lines 105-118), over the list of scene-change
timestamps. -/
def slideRanges (L : ℚ) (ts : List ℚ) : List (ℚ × ℚ) :=
  (List.range ts.length).map fun i => (rangeStart ts i, rangeEnd L ts i)

/-- All candidate `(current_time, slide_end_time)` windows produced by
`_create_slides` before the transcript-overlap materialization filter:
each range is split by the while-loop, in scene-change order. -/
def slideWindows (L : ℚ) (ts : List ℚ) : List (ℚ × ℚ) :=
  ((slideRanges L ts).map fun r => chopWindows L r.1 r.2).flatten

/-- The candidate windows of `DocumentGenerator._create_slides` for a
scene-change list, with the hard-coded `time_limit_per_slide = 300.0`. -/
def _create_slides_windows (scene_changes : List SceneChange) : List (ℚ × ℚ) :=
  slideWindows time_limit_per_slide (scene_changes.map (fun c => c.timestamp))

/-- Every window emitted by the splitting loop lies inside the range, is
nonempty (`start < end`), and lasts at most `L` seconds. -/
theorem chopFuel_mem (L : ℚ) (hL : 0 < L) :
    ∀ (fuel : ℕ) (c e : ℚ), ∀ w ∈ chopFuel L fuel c e,
      c ≤ w.1 ∧ w.1 < w.2 ∧ w.2 ≤ e ∧ w.2 - w.1 ≤ L := by
  intro fuel
  induction fuel with
  | zero => intro c e w hw; simp [chopFuel] at hw
  | succ fuel ih =>
    intro c e w hw
    unfold chopFuel at hw
    by_cases hc : c < e
    · rw [if_pos hc] at hw
      rcases List.mem_cons.mp hw with h | h
      · subst h
        refine ⟨le_refl c, ?_, min_le_right _ _, ?_⟩
        · exact lt_min (by linarith) hc
        · have := min_le_left (c + L) e
          simp only
          linarith
      · obtain ⟨h1, h2, h3, h4⟩ := ih (min (c + L) e) e w h
        exact ⟨le_trans (le_min (by linarith) (le_of_lt hc)) h1, h2, h3, h4⟩
    · rw [if_neg hc] at hw
      simp at hw

/-- The loop's first window, when present, starts at `current_time`. -/
theorem chopFuel_head (L : ℚ) (fuel : ℕ) (c e : ℚ) :
    ∀ w ∈ (chopFuel L fuel c e).head?, w.1 = c := by
  match fuel with
  | 0 => simp [chopFuel]
  | fuel + 1 =>
    unfold chopFuel
    by_cases hc : c < e
    · rw [if_pos hc]; simp
    · rw [if_neg hc]; simp

/-- Consecutive windows emitted by the splitting loop are contiguous: each
window ends where the next begins. -/
theorem chopFuel_chain (L : ℚ) :
    ∀ (fuel : ℕ) (c e : ℚ),
      List.Chain' (fun a b : ℚ × ℚ => a.2 = b.1) (chopFuel L fuel c e) := by
  intro fuel
  induction fuel with
  | zero => intro c e; simp [chopFuel]
  | succ fuel ih =>
    intro c e
    unfold chopFuel
    by_cases hc : c < e
    · rw [if_pos hc]
      rw [List.chain'_cons']
      refine ⟨?_, ih _ e⟩
      intro y hy
      exact (chopFuel_head L fuel _ e y hy).symm
    · rw [if_neg hc]
      simp

/-- With at least `⌈(end - current)/L⌉` iterations of budget, the splitting
loop covers every point of the closed range: each `x` in `[current, end]`
lies in some emitted window (endpoints included). -/
theorem chopFuel_covers (L : ℚ) (hL : 0 < L) (x e : ℚ) :
    ∀ (fuel : ℕ) (c : ℚ), ⌈(e - c) / L⌉ ≤ (fuel : ℤ) →
      c ≤ x → x ≤ e → c < e →
      ∃ w ∈ chopFuel L fuel c e, w.1 ≤ x ∧ x ≤ w.2 := by
  intro fuel
  induction fuel with
  | zero =>
    intro c hfuel hcx hxe hce
    exfalso
    have hpos : 0 < (e - c) / L := div_pos (by linarith) hL
    have hcpos := Int.ceil_pos.mpr hpos
    simp only [Nat.cast_zero] at hfuel
    omega
  | succ fuel ih =>
    intro c hfuel hcx hxe hce
    unfold chopFuel
    rw [if_pos hce]
    by_cases hxm : x ≤ min (c + L) e
    · exact ⟨(c, min (c + L) e), List.mem_cons_self _ _, hcx, hxm⟩
    · push_neg at hxm
      have hmlt : min (c + L) e < e := lt_of_lt_of_le hxm hxe
      have hclE : c + L < e := by
        by_contra hcl
        push_neg at hcl
        rw [min_eq_right hcl] at hmlt
        exact lt_irrefl e hmlt
      have hmeq : min (c + L) e = c + L := min_eq_left (le_of_lt hclE)
      rw [hmeq] at hxm ⊢
      have hfuel' : ⌈(e - (c + L)) / L⌉ ≤ (fuel : ℤ) := by
        have heq : (e - (c + L)) / L = (e - c) / L - 1 := by
          rw [show e - (c + L) = (e - c) - L by ring, sub_div,
            div_self (ne_of_gt hL)]
        rw [heq, Int.ceil_sub_one]
        push_cast at hfuel ⊢
        omega
      obtain ⟨w, hw, h1, h2⟩ := ih (c + L) hfuel' (le_of_lt hxm) hxe hclE
      exact ⟨w, List.mem_cons_of_mem _ hw, h1, h2⟩

/-- `getD` with an in-range index reads the list element. -/
theorem getD_eq_getElem_rat (ts : List ℚ) {i : ℕ} (h : i < ts.length) :
    ts.getD i 0 = ts[i] := by
  rw [List.getD_eq_getElem?_getD, List.getElem?_eq_getElem h]
  rfl

/-- `getD` is monotone over a sorted list of timestamps. -/
theorem getD_mono_of_sorted (ts : List ℚ)
    (hsort : List.Sorted (· ≤ ·) ts) {i k : ℕ} (hik : i ≤ k)
    (hk : k < ts.length) : ts.getD i 0 ≤ ts.getD k 0 := by
  rcases Nat.lt_or_ge i k with h | h
  · rw [getD_eq_getElem_rat ts (lt_trans h hk), getD_eq_getElem_rat ts hk]
    exact List.pairwise_iff_getElem.mp hsort i k _ hk h
  · have heq : i = k := by omega
    subst heq
    exact le_refl _

/-- Windows split from the range of scene change `j` are windows of the
slide builder. -/
theorem mem_slideWindows_of_mem_range (L : ℚ) (ts : List ℚ) {j : ℕ}
    (hj : j < ts.length) {w : ℚ × ℚ}
    (hw : w ∈ chopWindows L (rangeStart ts j) (rangeEnd L ts j)) :
    w ∈ slideWindows L ts := by
  unfold slideWindows
  rw [List.mem_flatten]
  refine ⟨chopWindows L (rangeStart ts j) (rangeEnd L ts j), ?_, hw⟩
  have hr : (rangeStart ts j, rangeEnd L ts j) ∈ slideRanges L ts :=
    List.mem_map_of_mem _ (List.mem_range.mpr hj)
  exact List.mem_map_of_mem (fun r => chopWindows L r.1 r.2) hr

/-- Claim C1 (amended): for every non-empty ascending list of nonnegative
scene-change timestamps and every cap `L > 0`, the candidate
`(current_time, slide_end_time)` windows of `_create_slides` all satisfy
`start < end` with duration at most `L`; the windows split from any single
scene change's range are contiguous (each ends where the next starts); and
the windows jointly cover `[0, last_timestamp + L]`.  (Windows from
consecutive scene changes overlap — see
`create_slides_windows_not_contiguous` — so the cover is not a partition.) -/
theorem create_slides_windows_spec (L : ℚ) (ts : List ℚ) (tl : ℚ)
    (hL : 0 < L) (hsort : List.Sorted (· ≤ ·) ts)
    (hnonneg : ∀ t ∈ ts, 0 ≤ t) (hlast : ts.getLast? = some tl) :
    (∀ w ∈ slideWindows L ts, w.1 < w.2 ∧ w.2 - w.1 ≤ L) ∧
    (∀ r ∈ slideRanges L ts,
      List.Chain' (fun a b : ℚ × ℚ => a.2 = b.1) (chopWindows L r.1 r.2)) ∧
    (∀ x : ℚ, 0 ≤ x → x ≤ tl + L →
      ∃ w ∈ slideWindows L ts, w.1 ≤ x ∧ x ≤ w.2) := by
  have hn : 0 < ts.length := by
    rcases ts with _ | ⟨a, t⟩
    · simp at hlast
    · simp
  have htl_mem : tl ∈ ts := by
    obtain ⟨hne, heq⟩ := List.mem_getLast?_eq_getLast hlast
    exact heq ▸ List.getLast_mem hne
  have htl_getD : ts.getD (ts.length - 1) 0 = tl := by
    have h1 : ts[ts.length - 1]? = some tl := by
      rw [← List.getLast?_eq_getElem?]
      exact hlast
    rw [List.getElem?_eq_getElem (by omega)] at h1
    rw [getD_eq_getElem_rat ts (by omega)]
    exact Option.some.inj h1
  refine ⟨?_, ?_, ?_⟩
  · intro w hw
    unfold slideWindows at hw
    rw [List.mem_flatten] at hw
    obtain ⟨l, hl, hwl⟩ := hw
    rw [List.mem_map] at hl
    obtain ⟨r, _, rfl⟩ := hl
    obtain ⟨_, h2, _, h4⟩ := chopFuel_mem L hL _ r.1 r.2 w hwl
    exact ⟨h2, h4⟩
  · intro r _
    exact chopFuel_chain L _ r.1 r.2
  · intro x hx0 hxtl
    classical
    have h0F : (0 : ℕ) ∈ (Finset.range ts.length).filter
        (fun k => rangeStart ts k ≤ x) := by
      rw [Finset.mem_filter, Finset.mem_range]
      exact ⟨hn, by simp [rangeStart, hx0]⟩
    set F := (Finset.range ts.length).filter (fun k => rangeStart ts k ≤ x)
      with hF
    have hFne : F.Nonempty := ⟨0, h0F⟩
    set j := F.max' hFne with hj_def
    have hjF : j ∈ F := F.max'_mem hFne
    rw [hF, Finset.mem_filter, Finset.mem_range] at hjF
    obtain ⟨hjlt, hsj⟩ := hjF
    have hmax : ∀ k, k < ts.length → rangeStart ts k ≤ x → k ≤ j := by
      intro k hk hsk
      refine F.le_max' k ?_
      rw [hF, Finset.mem_filter, Finset.mem_range]
      exact ⟨hk, hsk⟩
    by_cases hcase : j + 1 < ts.length
    · have hnotmem : ¬ (rangeStart ts (j + 1) ≤ x) := by
        intro hle
        have := hmax (j + 1) hcase hle
        omega
      push_neg at hnotmem
      have hstart_succ : rangeStart ts (j + 1) = ts.getD j 0 := by
        unfold rangeStart
        rw [if_neg (by omega)]
        norm_num
      have hend : rangeEnd L ts j = ts.getD (j + 1) 0 := by
        unfold rangeEnd
        rw [if_pos hcase]
      have hxe : x < rangeEnd L ts j := by
        rw [hend]
        calc x < rangeStart ts (j + 1) := hnotmem
          _ = ts.getD j 0 := hstart_succ
          _ ≤ ts.getD (j + 1) 0 := getD_mono_of_sorted ts hsort (by omega) hcase
      obtain ⟨w, hw, h1, h2⟩ := chopFuel_covers L hL x (rangeEnd L ts j) _
        (rangeStart ts j) (Int.self_le_toNat _) hsj (le_of_lt hxe)
        (lt_of_le_of_lt hsj hxe)
      exact ⟨w, mem_slideWindows_of_mem_range L ts hjlt hw, h1, h2⟩
    · have hjeq : j = ts.length - 1 := by omega
      have hend : rangeEnd L ts j = tl + L := by
        unfold rangeEnd
        rw [if_neg hcase, hjeq, htl_getD]
      have hce : rangeStart ts j < rangeEnd L ts j := by
        rw [hend]
        by_cases hj0 : j = 0
        · rw [hj0]
          unfold rangeStart
          rw [if_pos rfl]
          have := hnonneg tl htl_mem
          linarith
        · unfold rangeStart
          rw [if_neg hj0]
          have hle : ts.getD (j - 1) 0 ≤ ts.getD (ts.length - 1) 0 :=
            getD_mono_of_sorted ts hsort (by omega) (by omega)
          rw [htl_getD] at hle
          linarith
      obtain ⟨w, hw, h1, h2⟩ := chopFuel_covers L hL x (rangeEnd L ts j) _
        (rangeStart ts j) (Int.self_le_toNat _) hsj
        (by rw [hend]; exact hxtl) hce
      exact ⟨w, mem_slideWindows_of_mem_range L ts hjlt hw, h1, h2⟩

/-- Claim C1 counterexample: scene changes at t=10 and t=20 (ascending,
cap 300 > 0) produce the candidate windows
`[(0, 20), (10, 310), (310, 320)]`: window 0 ends at 20 but window 1 starts
at 10 (the range of change 1 begins at change 0's timestamp), so the
windows overlap instead of partitioning — the no-gaps/no-overlaps clause
fails. -/
theorem create_slides_windows_not_contiguous :
    (0 : ℚ) < time_limit_per_slide ∧
    List.Sorted (· ≤ ·) [(10 : ℚ), 20] ∧
    _create_slides_windows [⟨10, 1/2, "ssim"⟩, ⟨20, 1/2, "ssim"⟩] =
      [(0, 20), (10, 310), (310, 320)] ∧
    ¬ List.Chain' (fun a b : ℚ × ℚ => a.2 = b.1)
      (_create_slides_windows [⟨10, 1/2, "ssim"⟩, ⟨20, 1/2, "ssim"⟩]) := by
  have hf1 : ⌈((20 : ℚ) - 0) / 300⌉ = 1 := by
    rw [Int.ceil_eq_iff]
    norm_num
  have hf2 : ⌈((320 : ℚ) - 10) / 300⌉ = 2 := by
    rw [Int.ceil_eq_iff]
    norm_num
  have e1 : chopWindows 300 0 20 = [(0, 20)] := by
    unfold chopWindows
    rw [hf1]
    norm_num [chopFuel, min_def]
  have e2 : chopWindows 300 10 320 = [(10, 310), (310, 320)] := by
    unfold chopWindows
    rw [hf2]
    norm_num [chopFuel, min_def]
  have heval : _create_slides_windows [⟨10, 1/2, "ssim"⟩, ⟨20, 1/2, "ssim"⟩] =
      [(0, 20), (10, 310), (310, 320)] := by
    show slideWindows 300 [10, 20] = _
    unfold slideWindows slideRanges
    norm_num [List.range_succ, rangeStart, rangeEnd, List.getD, e1, e2]
  refine ⟨by norm_num [time_limit_per_slide], by norm_num [List.sorted_cons],
    heval, ?_⟩
  rw [heval]
  norm_num [List.chain'_cons]

/-- Witness for C1 (amended) at a concrete input: timestamps `[10, 20]`,
cap 300; the point x = 250 of `[0, 20 + 300]` is covered by some candidate
window. -/
theorem create_slides_windows_spec_witness :
    ∃ w ∈ slideWindows 300 [(10 : ℚ), 20], w.1 ≤ 250 ∧ 250 ≤ w.2 :=
  (create_slides_windows_spec 300 [10, 20] 20 (by norm_num)
    (by norm_num [List.sorted_cons]) (by norm_num) rfl).2.2 250
    (by norm_num) (by norm_num)

end YPT
